import Mathlib

/-!
Verification of the tag-jumper boundary-extraction engine and result cache.

The extraction code lives in src/babel-boundary-locator.ts and the cache and
navigation resolver in src/extension.ts.  Both functions first run the text
through the external Babel parser (an external collaborator, not part of this
repository) and then walk the resulting AST with a visitor that fires on
JSXOpeningElement nodes in depth-first (document) order.  We therefore embed
the extraction as functions of the traversal-order list of JSX nodes that the
parser produces for a text; concrete node lists for the scenario texts are
written out following Babel's documented offset conventions (a node's `start`
and `end` are half-open character offsets, a JSXOpeningElement spans from its
`<` through its closing `>` or `/>`).
-/

/-- Babel expression node type names, as used for the keys of
`JSX_EXPRESSION_TYPE_OFFSETS` in src/babel-boundary-locator.ts (the 47 kinds
present in the table) together with four real Babel expression kinds that are
absent from the table (`FunctionExpression`, `UnaryExpression`,
`UpdateExpression`, `YieldExpression`), so that failed lookups are
representable. -/
inductive ExprKind where
  | ArrayExpression
  | ArrowFunctionExpression
  | AssignmentExpression
  | AwaitExpression
  | BigIntLiteral
  | BindExpression
  | BinaryExpression
  | BooleanLiteral
  | CallExpression
  | ClassExpression
  | ConditionalExpression
  | DecimalLiteral
  | DoExpression
  | Identifier
  | ImportExpression
  | JSXElement
  | JSXEmptyExpression
  | JSXFragment
  | LogicalExpression
  | MemberExpression
  | MetaProperty
  | ModuleExpression
  | NewExpression
  | NullLiteral
  | NumericLiteral
  | ObjectExpression
  | OptionalCallExpression
  | OptionalMemberExpression
  | ParenthesizedExpression
  | PipelineBareFunction
  | PipelinePrimaryTopicReference
  | PipelineTopicExpression
  | RecordExpression
  | RegExpLiteral
  | SequenceExpression
  | StringLiteral
  | Super
  | TaggedTemplateExpression
  | TemplateLiteral
  | ThisExpression
  | TopicReference
  | TSAsExpression
  | TSInstantiationExpression
  | TSNonNullExpression
  | TSSatisfiesExpression
  | TSTypeAssertion
  | TupleExpression
  | FunctionExpression
  | UnaryExpression
  | UpdateExpression
  | YieldExpression
  deriving DecidableEq, Repr

/-- The lookup table `JSX_EXPRESSION_TYPE_OFFSETS` of
src/babel-boundary-locator.ts (lines 6-54).  In the source it is a
`Record<string, number>`; indexing a record with a key that is absent yields
`undefined`, which we model as `none`. -/
def JSX_EXPRESSION_TYPE_OFFSETS : ExprKind → Option Int
  | .ArrayExpression => some (-2)
  | .ArrowFunctionExpression => some (-1)
  | .AssignmentExpression => some (-2)
  | .AwaitExpression => some (-1)
  | .BigIntLiteral => some (-1)
  | .BindExpression => some (-1)
  | .BinaryExpression => some (-1)
  | .BooleanLiteral => some (-1)
  | .CallExpression => some (-1)
  | .ClassExpression => some (-2)
  | .ConditionalExpression => some (-1)
  | .DecimalLiteral => some (-1)
  | .DoExpression => some (-2)
  | .Identifier => some (-1)
  | .ImportExpression => some (-3)
  | .JSXElement => some (-1)
  | .JSXEmptyExpression => some (-1)
  | .JSXFragment => some (-1)
  | .LogicalExpression => some (-1)
  | .MemberExpression => some (-1)
  | .MetaProperty => some (-1)
  | .ModuleExpression => some (-2)
  | .NewExpression => some (-1)
  | .NullLiteral => some (-1)
  | .NumericLiteral => some (-1)
  | .ObjectExpression => some (-2)
  | .OptionalCallExpression => some (-1)
  | .OptionalMemberExpression => some (-1)
  | .ParenthesizedExpression => some (-2)
  | .PipelineBareFunction => some (-1)
  | .PipelinePrimaryTopicReference => some (-1)
  | .PipelineTopicExpression => some (-1)
  | .RecordExpression => some (-1)
  | .RegExpLiteral => some (-2)
  | .SequenceExpression => some (-2)
  | .StringLiteral => some (-2)
  | .Super => some (-1)
  | .TaggedTemplateExpression => some (-2)
  | .TemplateLiteral => some (-2)
  | .ThisExpression => some (-1)
  | .TopicReference => some (-1)
  | .TSAsExpression => some (-1)
  | .TSInstantiationExpression => some (-1)
  | .TSNonNullExpression => some (-1)
  | .TSSatisfiesExpression => some (-1)
  | .TSTypeAssertion => some (-1)
  | .TupleExpression => some (-2)
  | _ => none

/-- The value of a `JSXAttribute` node (Babel's closed set for attribute
values: a string literal, a JSX element, a JSX fragment, or an expression
container holding an expression of some kind).  `otherValue` models the
defensive branch of the source for a value object of an unexpected type. -/
inductive AttrValue where
  | stringLiteral
  | jsxElement
  | jsxFragment
  | exprContainer (k : ExprKind)
  | otherValue (typeName : String)
  deriving DecidableEq, Repr

/-- The `value` field of a `JSXAttribute` as the JavaScript code observes it:
`null` (a value-less boolean attribute), `undefined` (defensive case), or an
actual value node. -/
inductive AttrValueField where
  | nullVal
  | undefinedVal
  | val (v : AttrValue)
  deriving DecidableEq, Repr

/-- An attribute node of a JSXOpeningElement: a `JSXAttribute`, a
`JSXSpreadAttribute`, or (defensively) a node of some other type.  `start` and
`end` offsets may be absent (`null`/`undefined` in Babel's types), hence
`Option Nat`. -/
inductive JSXAttr where
  | jsxAttribute (startPos : Option Nat) (endPos : Option Nat) (value : AttrValueField)
  | jsxSpreadAttribute (startPos : Option Nat) (endPos : Option Nat)
  | otherAttr (typeName : String) (startPos : Option Nat) (endPos : Option Nat)
  deriving DecidableEq, Repr

/-- A `JSXOpeningElement` node: its `end` offset (possibly absent), its
`selfClosing` flag, and its attribute list, which is all the visitor in
src/babel-boundary-locator.ts reads from it. -/
structure JSXOpeningElement where
  endPos : Option Nat
  selfClosing : Bool
  attributes : List JSXAttr
  deriving DecidableEq, Repr

/-- One node of the traversal-order view of a parsed document: an opening
element (the only node kind either visitor fires on), a closing element
(`JSXClosingElement`, never visited), or any other node (JSX text, comments,
containers, ...). -/
inductive JSXNode where
  | opening (el : JSXOpeningElement)
  | closing (startPos endPos : Nat)
  | otherNode
  deriving DecidableEq, Repr

/-- The boundary contributed by one `JSXOpeningElement`, from the visitor body
of `getTagBoundaryPositions` (src/babel-boundary-locator.ts lines 78-88):
nodes whose `end` is not a number contribute nothing; self-closing tags push
`end - 2`; open tags push `end - 1`. -/
def tagBoundary (el : JSXOpeningElement) : Option Int :=
  match el.endPos with
  | some e => some (if el.selfClosing then (e : Int) - 2 else (e : Int) - 1)
  | none => none

/-- `getTagBoundaryPositions` (src/babel-boundary-locator.ts lines 71-93):
traverse the document; only `JSXOpeningElement` nodes are visited, each
pushing its boundary (if its `end` is a number) in traversal order. -/
def getTagBoundaryPositions : List JSXNode → List Int
  | [] => []
  | .opening el :: rest =>
    (match tagBoundary el with
     | some b => [b]
     | none => []) ++ getTagBoundaryPositions rest
  | .closing _ _ :: rest => getTagBoundaryPositions rest
  | .otherNode :: rest => getTagBoundaryPositions rest

/-- The errors thrown by `getAttributeBoundaryPositions`
(src/babel-boundary-locator.ts lines 99-180), one constructor per `throw new
Error(...)` site. -/
inductive ExtractError where
  | missingEnd
  | undefinedAttrValue
  | unsupportedExpressionKind (k : ExprKind)
  | unexpectedValueType (typeName : String)
  | unexpectedValue
  | unexpectedAttributeType (typeName : String)
  deriving DecidableEq, Repr

/-- Whether the JavaScript guard `!attr.end` fires: it is true when `end` is
`null`/`undefined` and also when `end` is the (falsy) number `0`. -/
def jsFalsyEnd : Option Nat → Bool
  | none => true
  | some e => e == 0

/-- The boundary contributed by one attribute node: the body of the `for`
loop of `getAttributeBoundaryPositions` (src/babel-boundary-locator.ts lines
106-174), with each `throw` modelled as an `Except.error`. -/
def attrBoundary (attr : JSXAttr) : Except ExtractError Int :=
  match attr with
  | .jsxSpreadAttribute _ e? =>
    if jsFalsyEnd e? then .error .missingEnd
    else
      match e? with
      | some e => .ok ((e : Int) - 1)
      | none => .error .missingEnd
  | .jsxAttribute _ e? v =>
    if jsFalsyEnd e? then .error .missingEnd
    else
      match e? with
      | none => .error .missingEnd
      | some e =>
        match v with
        | .nullVal => .ok (e : Int)
        | .undefinedVal => .error .undefinedAttrValue
        | .val av =>
          match av with
          | .stringLiteral => .ok ((e : Int) - 1)
          | .jsxFragment => .ok ((e : Int) - 1)
          | .jsxElement => .ok ((e : Int) - 1)
          | .exprContainer k =>
            match JSX_EXPRESSION_TYPE_OFFSETS k with
            | some off => .ok ((e : Int) + off)
            | none => .error (.unsupportedExpressionKind k)
          | .otherValue t => .error (.unexpectedValueType t)
  | .otherAttr t _ e? =>
    if jsFalsyEnd e? then .error .missingEnd
    else .error (.unexpectedAttributeType t)

/-- Runs `attrBoundary` over a list of attributes in order, stopping at the
first thrown error, collecting the pushed boundaries otherwise. -/
def attrBoundaries : List JSXAttr → Except ExtractError (List Int)
  | [] => .ok []
  | a :: t =>
    match attrBoundary a with
    | .ok v =>
      match attrBoundaries t with
      | .ok vs => .ok (v :: vs)
      | .error e => .error e
    | .error e => .error e

/-- The attributes a node contributes to the traversal: the visitor of
`getAttributeBoundaryPositions` fires only on `JSXOpeningElement` nodes and
loops over `path.node.attributes`. -/
def nodeAttrs : JSXNode → List JSXAttr
  | .opening el => el.attributes
  | _ => []

/-- `getAttributeBoundaryPositions` (src/babel-boundary-locator.ts lines
99-180): visit every opening element in traversal order, pushing one boundary
per attribute; a thrown error aborts the whole traversal. -/
def getAttributeBoundaryPositions (nodes : List JSXNode) : Except ExtractError (List Int) :=
  attrBoundaries (nodes.flatMap nodeAttrs)

/-- The lookup table `JSX_EXPRESSION_TYPE_OFFSETS` as it appears in the
refactored copy of the locator (src/unnamed/part_004, lines 25-71).  It agrees
with the table in src/babel-boundary-locator.ts except that
`ArrowFunctionExpression` maps to `-2` there instead of `-1`. -/
def JSX_EXPRESSION_TYPE_OFFSETS_v004 (k : ExprKind) : Option Int :=
  match k with
  | .ArrowFunctionExpression => some (-2)
  | _ => JSX_EXPRESSION_TYPE_OFFSETS k

/-- A JavaScript `number` as produced by arithmetic on a possibly-undefined
operand: either an actual integer or `NaN` (the result of
`number + undefined`). -/
inductive JSNum where
  | num (n : Int)
  | nan
  deriving DecidableEq, Repr

/-- JavaScript addition of a number and a table-lookup result: when the lookup
missed (`undefined`), the sum is `NaN`. -/
def jsAddLookup (a : Nat) (b : Option Int) : JSNum :=
  match b with
  | some m => .num ((a : Int) + m)
  | none => .nan

/-- `getJSXAttributeBoundary` from src/unnamed/part_004 (lines 186-236),
the helper the refactored `getAttributeBoundaryPositions` delegates each
`JSXAttribute` to.  Its guard is `typeof attr.end !== "number"` (not the falsy
test), and its `JSXExpressionContainer` branch is
`return attr.end + JSX_EXPRESSION_TYPE_OFFSETS[attr.value.expression.type]`
with no check that the lookup produced a number, so an expression kind absent
from the table yields `attr.end + undefined = NaN` instead of a thrown
error. -/
def getJSXAttributeBoundary (_startPos : Option Nat) (endPos : Option Nat)
    (value : AttrValueField) : Except ExtractError JSNum :=
  match endPos with
  | none => .error .missingEnd
  | some e =>
    match value with
    | .nullVal => .ok (.num (e : Int))
    | .undefinedVal => .error .undefinedAttrValue
    | .val av =>
      match av with
      | .stringLiteral => .ok (.num ((e : Int) - 1))
      | .jsxFragment => .ok (.num ((e : Int) - 1))
      | .jsxElement => .ok (.num ((e : Int) - 1))
      | .exprContainer k => .ok (jsAddLookup e (JSX_EXPRESSION_TYPE_OFFSETS_v004 k))
      | .otherValue t => .error (.unexpectedValueType t)

/-- The two boundary-locator functions passed to `getCachedBoundaries` in
src/extension.ts: `getTagBoundaryPositions` and
`getAttributeBoundaryPositions` (the extraction kinds). -/
inductive LocKind where
  | tag
  | attr
  deriving DecidableEq, Repr

/-- `fn.name` for each locator function (used as the cache-key suffix in
`getCachedBoundaries`, src/extension.ts line 162). -/
def fnName : LocKind → String
  | .tag => "getTagBoundaryPositions"
  | .attr => "getAttributeBoundaryPositions"

/-- Running one locator on a text: the text is first parsed by the external
Babel parser (`parse`, supplied as a parameter giving the traversal-order node
view of each text) and the corresponding extraction is applied.
`getTagBoundaryPositions` never throws; `getAttributeBoundaryPositions`
may. -/
def runLocator (parse : String → List JSXNode) : LocKind → String → Except ExtractError (List Int)
  | .tag, t => .ok (getTagBoundaryPositions (parse t))
  | .attr, t => getAttributeBoundaryPositions (parse t)

/-- The boundary cache of src/extension.ts: an LRU map from string keys to
boundary lists, most recently used first. -/
abbrev Cache := List (String × List Int)

/-- Capacity of the LRU cache (`new LRU({ max: 40 })`, src/extension.ts
line 138-140). -/
def CACHE_MAX : Nat := 40

/-- Pure lookup in the cache (no recency update). -/
def cacheLookup (c : Cache) (k : String) : Option (List Int) :=
  (c.find? (fun kv => kv.1 == k)).map (fun kv => kv.2)

/-- `boundaryCache.get(key)`: returns the stored list if present and marks the
entry most recently used (moves it to the front); a miss leaves the cache
untouched. -/
def cacheGetRefresh (c : Cache) (k : String) : Option (List Int) × Cache :=
  match c.find? (fun kv => kv.1 == k) with
  | some kv => (some kv.2, (k, kv.2) :: c.filter (fun kv2 => kv2.1 != k))
  | none => (none, c)

/-- `boundaryCache.set(key, entry)`: inserts the entry as most recently used
and evicts least-recently-used entries beyond the capacity. -/
def cacheSet (c : Cache) (k : String) (v : List Int) : Cache :=
  ((k, v) :: c.filter (fun kv => kv.1 != k)).take CACHE_MAX

/-- The cache key built in `getCachedBoundaries` (src/extension.ts line 164):
the content hash of the text concatenated with ":" and the locator function's
name.  `hash` is the external `hashText` (a SHA-1 hex digest in the source),
supplied as a parameter. -/
def mkKey (hash : String → String) (text : String) (k : LocKind) : String :=
  hash text ++ ":" ++ fnName k

/-- `getCachedBoundaries` (src/extension.ts lines 157-172): look the key up in
the cache; on a miss run the locator and store its result.  A locator throw
propagates and the cache is left exactly as it was. -/
def getCachedBoundaries (hash : String → String) (parse : String → List JSXNode)
    (text : String) (k : LocKind) (c : Cache) :
    Except ExtractError (List Int) × Cache :=
  match cacheGetRefresh c (mkKey hash text k) with
  | (some entry, c1) => (.ok entry, c1)
  | (none, _) =>
    match runLocator parse k text with
    | .ok v => (.ok v, cacheSet c (mkKey hash text k) v)
    | .error e => (.error e, c)

/-- The position-gathering loop of `jumpToBoundary` (src/extension.ts lines
196-199): concatenate the cached boundary lists of the selected locator
functions, threading the cache; a thrown error aborts the loop. -/
def gather (hash : String → String) (parse : String → List JSXNode)
    (fns : List LocKind) (text : String) (c : Cache) :
    Except ExtractError (List Int) × Cache :=
  match fns with
  | [] => (.ok [], c)
  | k :: rest =>
    match getCachedBoundaries hash parse text k c with
    | (.ok l, c1) =>
      match gather hash parse rest text c1 with
      | (.ok ls, c2) => (.ok (l ++ ls), c2)
      | err => err
    | (.error e, c1) => (.error e, c1)

/-- `Array.from(new Set(positions))` (src/extension.ts line 201): first
occurrences in insertion order. -/
def dedupJS (l : List Int) : List Int :=
  l.foldl (fun acc x => if x ∈ acc then acc else acc ++ [x]) []

/-- `positions.sort((a, b) => a - b)` (src/extension.ts line 202): ascending
numeric sort. -/
def sortAsc (l : List Int) : List Int :=
  List.insertionSort (fun a b => a ≤ b) l

/-- The deduplicated, ascending position list `jumpToBoundary` searches. -/
def dedupSort (l : List Int) : List Int :=
  sortAsc (dedupJS l)

/-- The two navigation directions of `jumpToBoundary`. -/
inductive Direction where
  | next
  | prev
  deriving DecidableEq, Repr

/-- The target-selection expression of `jumpToBoundary` (src/extension.ts
lines 209-212): forward takes the first position strictly greater than the
cursor offset; backward takes the first position strictly less than it in the
reversed list.  `undefined` (no such position) is `none`. -/
def findTarget (dir : Direction) (positions : List Int) (p : Int) : Option Int :=
  match dir with
  | .next => positions.find? (fun o => decide (p < o))
  | .prev => positions.reverse.find? (fun o => decide (o < p))

/-- The full navigation pipeline of `jumpToBoundary` for a given direction:
gather the selected boundary lists through the cache, deduplicate and sort,
then pick the target position relative to the cursor offset `p`. -/
def jumpToBoundary (hash : String → String) (parse : String → List JSXNode)
    (fns : List LocKind) (dir : Direction) (text : String) (c : Cache) (p : Int) :
    Except ExtractError (Option Int) × Cache :=
  match gather hash parse fns text c with
  | (.ok l, c1) => (.ok (findTarget dir (dedupSort l) p), c1)
  | (.error e, c1) => (.error e, c1)

/-- Well-formedness of an attribute node of a parsed text of length `len`, as
guaranteed by the external parser's grammar (every node's offsets are exact
character offsets into the text): an attribute ends strictly before the
text's end (its tag's closing `>` follows it), a spread attribute or a valued
attribute ends after at least one character of its own, and an attribute
whose value is an expression container ends at offset 3 or later (it is
preceded by at least `<`, a tag name, a space, and contains at least
`n={x}`). -/
def wfAttr (len : Nat) : JSXAttr → Bool
  | .jsxSpreadAttribute _ (some e) => 1 ≤ e && e < len
  | .jsxSpreadAttribute _ none => true
  | .jsxAttribute _ (some e) v =>
    match v with
    | .nullVal => decide (e < len)
    | .undefinedVal => true
    | .val (.exprContainer _) => 3 ≤ e && e < len
    | .val (.otherValue _) => true
    | .val _ => 1 ≤ e && e < len
  | .jsxAttribute _ none _ => true
  | .otherAttr _ _ _ => true

/-- Well-formedness of one traversal node for a text of length `len`: an
opening element with a recorded end satisfies the minimal size its concrete
syntax forces (`<a>` is three characters, `<a/>` four) and ends within the
text, and all its attributes are well formed. -/
def wfNode (len : Nat) : JSXNode → Bool
  | .opening el =>
    (match el.endPos with
     | some e => (if el.selfClosing then 4 ≤ e else 3 ≤ e) && e ≤ len
     | none => true)
    && el.attributes.all (wfAttr len)
  | _ => true

/-- A well-formed parsed document for a text of length `len`: every traversal
node is well formed. -/
def WFdoc (len : Nat) (nodes : List JSXNode) : Prop :=
  ∀ n ∈ nodes, wfNode len n = true

/-- Babel parse (traversal-order node view) of the text
`<div>content</div>` (length 18): the `JSXElement` spans 0-18, its
`JSXOpeningElement` `<div>` spans 0-5 (not self-closing, no attributes), the
`JSXText` `content` spans 5-12, and the `JSXClosingElement` `</div>` spans
12-18.  Only the opening and closing elements and the text node appear in the
traversal. -/
def divNodes : List JSXNode :=
  [.opening { endPos := some 5, selfClosing := false, attributes := [] },
   .otherNode,
   .closing 12 18]

/-- Babel parse (traversal-order node view) of the text `<br/>` (length 5):
a single self-closing `JSXOpeningElement` spanning 0-5 with no attributes. -/
def brNodes : List JSXNode :=
  [.opening { endPos := some 5, selfClosing := true, attributes := [] }]

/-- Babel parse (traversal-order node view) of the text
`<Widget content={<span>bar</span>} />` (length 37): the outer self-closing
`JSXOpeningElement` spans 0-37 and carries one attribute, `content`, spanning
8-34 whose value is a `JSXExpressionContainer` (16-34) holding a `JSXElement`
(17-33); inside it the nested `JSXOpeningElement` `<span>` spans 17-23 (not
self-closing, no attributes), the `JSXText` `bar` spans 23-26 and the
`JSXClosingElement` `</span>` spans 26-33.  Depth-first traversal visits the
outer opening element before the nested one. -/
def widgetNodes : List JSXNode :=
  [.opening { endPos := some 37, selfClosing := true,
              attributes := [.jsxAttribute (some 8) (some 34)
                               (.val (.exprContainer .JSXElement))] },
   .opening { endPos := some 23, selfClosing := false, attributes := [] },
   .otherNode,
   .closing 26 33]

/-- Membership in the fold underlying `dedupJS`. -/
theorem mem_foldl_dedup (l : List Int) : ∀ (acc : List Int) (x : Int),
    (x ∈ l.foldl (fun acc x => if x ∈ acc then acc else acc ++ [x]) acc ↔
      x ∈ acc ∨ x ∈ l) := by
  induction l with
  | nil => simp
  | cons a t ih =>
    intro acc x
    simp only [List.foldl_cons]
    by_cases h : a ∈ acc
    · rw [if_pos h, ih]
      constructor
      · rintro (hx | hx)
        · exact Or.inl hx
        · exact Or.inr (List.mem_cons_of_mem _ hx)
      · rintro (hx | hx)
        · exact Or.inl hx
        · rcases List.mem_cons.mp hx with rfl | hx
          · exact Or.inl h
          · exact Or.inr hx
    · rw [if_neg h, ih]
      simp only [List.mem_append, List.mem_singleton, List.mem_cons]
      tauto

/-- The fold underlying `dedupJS` preserves freedom from duplicates. -/
theorem nodup_foldl_dedup (l : List Int) : ∀ (acc : List Int), acc.Nodup →
    (l.foldl (fun acc x => if x ∈ acc then acc else acc ++ [x]) acc).Nodup := by
  induction l with
  | nil => intro acc h; simpa using h
  | cons a t ih =>
    intro acc h
    simp only [List.foldl_cons]
    by_cases ha : a ∈ acc
    · rw [if_pos ha]; exact ih acc h
    · rw [if_neg ha]
      refine ih _ ?_
      simpa [List.nodup_append] using ⟨h, ha⟩

/-- `dedupJS` keeps exactly the members of its input. -/
theorem mem_dedupJS (l : List Int) (x : Int) : x ∈ dedupJS l ↔ x ∈ l := by
  unfold dedupJS
  rw [mem_foldl_dedup]
  simp

/-- `dedupJS` has no duplicates. -/
theorem nodup_dedupJS (l : List Int) : (dedupJS l).Nodup :=
  nodup_foldl_dedup l [] List.nodup_nil

/-- `dedupSort` keeps exactly the members of its input. -/
theorem mem_dedupSort (l : List Int) (x : Int) : x ∈ dedupSort l ↔ x ∈ l := by
  unfold dedupSort sortAsc
  rw [List.mem_insertionSort]
  exact mem_dedupJS l x

/-- `dedupSort` produces a weakly ascending list. -/
theorem sorted_dedupSort (l : List Int) : (dedupSort l).Sorted (· ≤ ·) :=
  List.sorted_insertionSort _ _

/-- `dedupSort` produces a duplicate-free list. -/
theorem nodup_dedupSort (l : List Int) : (dedupSort l).Nodup :=
  ((List.perm_insertionSort _ _).nodup_iff).mpr (nodup_dedupJS l)

/-- `dedupSort` produces a strictly ascending list. -/
theorem pairwise_lt_dedupSort (l : List Int) :
    List.Pairwise (· < ·) (dedupSort l) := by
  have hs := sorted_dedupSort l
  have hn := nodup_dedupSort l
  exact (hs.and hn).imp (fun h => lt_of_le_of_ne h.1 h.2)

/-- On a weakly ascending list, `find?` with the predicate "strictly greater
than `p`" returns exactly the least member strictly greater than `p`. -/
theorem find?_gt_sorted (p : Int) :
    ∀ (l : List Int), l.Sorted (· ≤ ·) → ∀ x,
      (l.find? (fun o => decide (p < o)) = some x ↔
        x ∈ l ∧ p < x ∧ ∀ y ∈ l, p < y → x ≤ y) := by
  intro l
  induction l with
  | nil => simp
  | cons a t ih =>
    intro hs x
    by_cases h : p < a
    · rw [List.find?_cons_of_pos _ (by simpa using h)]
      constructor
      · rintro ⟨rfl⟩
        refine ⟨List.mem_cons_self _ _, h, ?_⟩
        intro y hy _
        rcases List.mem_cons.mp hy with rfl | hy
        · exact le_refl _
        · exact List.rel_of_sorted_cons hs y hy
      · rintro ⟨hmem, hx, hmin⟩
        have h1 : x ≤ a := hmin a (List.mem_cons_self _ _) h
        have h2 : a ≤ x := by
          rcases List.mem_cons.mp hmem with rfl | hmemt
          · exact le_refl _
          · exact List.rel_of_sorted_cons hs x hmemt
        rw [le_antisymm h1 h2]
    · rw [List.find?_cons_of_neg _ (by simpa using h)]
      rw [ih hs.of_cons x]
      constructor
      · rintro ⟨hmem, hx, hmin⟩
        refine ⟨List.mem_cons_of_mem _ hmem, hx, ?_⟩
        intro y hy hpy
        rcases List.mem_cons.mp hy with rfl | hy
        · exact absurd hpy h
        · exact hmin y hy hpy
      · rintro ⟨hmem, hx, hmin⟩
        rcases List.mem_cons.mp hmem with rfl | hmemt
        · exact absurd hx h
        · exact ⟨hmemt, hx, fun y hy hpy => hmin y (List.mem_cons_of_mem _ hy) hpy⟩

/-- On a weakly descending list, `find?` with the predicate "strictly less
than `p`" returns exactly the greatest member strictly less than `p`. -/
theorem find?_lt_sorted_ge (p : Int) :
    ∀ (l : List Int), l.Sorted (· ≥ ·) → ∀ x,
      (l.find? (fun o => decide (o < p)) = some x ↔
        x ∈ l ∧ x < p ∧ ∀ y ∈ l, y < p → y ≤ x) := by
  intro l
  induction l with
  | nil => simp
  | cons a t ih =>
    intro hs x
    by_cases h : a < p
    · rw [List.find?_cons_of_pos _ (by simpa using h)]
      constructor
      · rintro ⟨rfl⟩
        refine ⟨List.mem_cons_self _ _, h, ?_⟩
        intro y hy _
        rcases List.mem_cons.mp hy with rfl | hy
        · exact le_refl _
        · exact List.rel_of_sorted_cons hs y hy
      · rintro ⟨hmem, hx, hmax⟩
        have h1 : a ≤ x := hmax a (List.mem_cons_self _ _) h
        have h2 : x ≤ a := by
          rcases List.mem_cons.mp hmem with rfl | hmemt
          · exact le_refl _
          · exact List.rel_of_sorted_cons hs x hmemt
        rw [le_antisymm h2 h1]
    · rw [List.find?_cons_of_neg _ (by simpa using h)]
      rw [ih hs.of_cons x]
      constructor
      · rintro ⟨hmem, hx, hmax⟩
        refine ⟨List.mem_cons_of_mem _ hmem, hx, ?_⟩
        intro y hy hpy
        rcases List.mem_cons.mp hy with rfl | hy
        · exact absurd hpy h
        · exact hmax y hy hpy
      · rintro ⟨hmem, hx, hmax⟩
        rcases List.mem_cons.mp hmem with rfl | hmemt
        · exact absurd hx h
        · exact ⟨hmemt, hx, fun y hy hpy => hmax y (List.mem_cons_of_mem _ hy) hpy⟩

/-- The reverse of the `dedupSort` output is weakly descending. -/
theorem sorted_ge_reverse_dedupSort (l : List Int) :
    (dedupSort l).reverse.Sorted (· ≥ ·) := by
  exact List.pairwise_reverse.mpr ((sorted_dedupSort l).imp (fun h => h))

/-- Looking up in a cache with a fresh head entry. -/
theorem cacheLookup_cons (k k2 : String) (v : List Int) (c : Cache) :
    cacheLookup ((k, v) :: c) k2 = if k == k2 then some v else cacheLookup c k2 := by
  by_cases h : k = k2
  · subst h; simp [cacheLookup, List.find?_cons]
  · have hb : (k == k2) = false := by simpa using h
    simp [cacheLookup, List.find?_cons, hb]

/-- `find?` is unchanged by filtering with a predicate implied by the search
predicate. -/
theorem find?_filter_eq {α : Type} (p q : α → Bool)
    (h : ∀ y, p y = true → q y = true) :
    ∀ (l : List α), (l.filter q).find? p = l.find? p := by
  intro l
  induction l with
  | nil => simp
  | cons a t ih =>
    by_cases hq : q a = true
    · rw [List.filter_cons_of_pos hq]
      by_cases hp : p a = true
      · rw [List.find?_cons_of_pos _ hp, List.find?_cons_of_pos _ hp]
      · have hp2 : ¬ p a = true := hp
        rw [List.find?_cons_of_neg _ hp2, List.find?_cons_of_neg _ hp2, ih]
    · rw [List.filter_cons_of_neg (by simpa using hq)]
      have hp : ¬ p a = true := fun hpa => hq (h a hpa)
      rw [List.find?_cons_of_neg _ hp, ih]

/-- Filtering out entries under a different key does not change a lookup. -/
theorem cacheLookup_filter_ne (c : Cache) (k k2 : String) (h : k2 ≠ k) :
    cacheLookup (c.filter (fun kv => kv.1 != k)) k2 = cacheLookup c k2 := by
  unfold cacheLookup
  rw [find?_filter_eq]
  intro y hy
  have : y.1 = k2 := by simpa using hy
  simp [this, h]

/-- A successful `find?` on a prefix succeeds on the whole list. -/
theorem find?_take_some {α : Type} (p : α → Bool) :
    ∀ (l : List α) (n : Nat) (x : α), (l.take n).find? p = some x → l.find? p = some x := by
  intro l
  induction l with
  | nil => simp
  | cons a t ih =>
    intro n x h
    cases n with
    | zero => simp at h
    | succ m =>
      rw [List.take_succ_cons] at h
      by_cases hp : p a = true
      · rw [List.find?_cons_of_pos _ hp] at h ⊢; exact h
      · rw [List.find?_cons_of_neg _ hp] at h ⊢
        exact ih m x h

/-- A lookup that succeeds on a truncated cache succeeds with the same value
on the untruncated cache. -/
theorem cacheLookup_take_some (c : Cache) (n : Nat) (k : String) (v : List Int)
    (h : cacheLookup (c.take n) k = some v) : cacheLookup c k = some v := by
  unfold cacheLookup at h ⊢
  rcases Option.map_eq_some'.mp h with ⟨kv, hkv, hv⟩
  rw [find?_take_some _ c n kv hkv]
  simpa using hv

/-- After `cacheSet c k v`, looking up `k` yields `v` (the fresh entry is the
most recently used one and survives the capacity trim). -/
theorem cacheLookup_cacheSet_self (c : Cache) (k : String) (v : List Int) :
    cacheLookup (cacheSet c k v) k = some v := by
  unfold cacheSet CACHE_MAX
  rw [List.take_succ_cons]
  rw [cacheLookup_cons]
  simp

/-- A lookup under a key other than the one just set either fails or returns
what the original cache already held under that key. -/
theorem cacheLookup_cacheSet_ne (c : Cache) (k k2 : String) (v v2 : List Int)
    (hne : k2 ≠ k) (h : cacheLookup (cacheSet c k v) k2 = some v2) :
    cacheLookup c k2 = some v2 := by
  unfold cacheSet at h
  have h2 := cacheLookup_take_some _ _ _ _ h
  rw [cacheLookup_cons] at h2
  have hb : (k == k2) = false := by simpa using fun he => hne he.symm
  rw [hb] at h2
  simp only [Bool.false_eq_true, if_false] at h2
  rw [cacheLookup_filter_ne c k k2 hne] at h2
  exact h2

/-- The value component of `boundaryCache.get` agrees with the pure lookup. -/
theorem cacheGetRefresh_fst (c : Cache) (k : String) :
    (cacheGetRefresh c k).1 = cacheLookup c k := by
  unfold cacheGetRefresh cacheLookup
  cases h : c.find? (fun kv => kv.1 == k) <;> simp

/-- A miss leaves `boundaryCache.get` without any cache mutation. -/
theorem cacheGetRefresh_miss (c : Cache) (k : String) (h : cacheLookup c k = none) :
    cacheGetRefresh c k = (none, c) := by
  unfold cacheGetRefresh
  unfold cacheLookup at h
  cases hf : c.find? (fun kv => kv.1 == k) with
  | none => rfl
  | some kv => rw [hf] at h; simp at h

/-- On a hit, `boundaryCache.get` returns the stored value and the refreshed
cache whose head is that entry. -/
theorem cacheGetRefresh_hit (c : Cache) (k : String) (v : List Int)
    (h : cacheLookup c k = some v) :
    cacheGetRefresh c k = (some v, (k, v) :: c.filter (fun kv2 => kv2.1 != k)) := by
  unfold cacheGetRefresh
  unfold cacheLookup at h
  cases hf : c.find? (fun kv => kv.1 == k) with
  | none => rw [hf] at h; simp at h
  | some kv =>
    rw [hf] at h
    simp only [Option.map_some'] at h
    cases h
    rfl

/-- Splitting at the first occurrence of a marker character is unambiguous:
if two marker-free prefixes followed by the marker yield the same character
list, prefixes and suffixes agree. -/
theorem append_marker_inj (m : Char) :
    ∀ (a b n2 m2 : List Char), m ∉ a → m ∉ b →
      a ++ m :: n2 = b ++ m :: m2 → a = b ∧ n2 = m2 := by
  intro a
  induction a with
  | nil =>
    intro b n2 m2 _ hb h
    cases b with
    | nil => simpa using h
    | cons d bs =>
      simp only [List.nil_append, List.cons_append, List.cons.injEq] at h
      exact absurd (h.1 ▸ List.mem_cons_self d bs) (h.1 ▸ hb)
  | cons c as ih =>
    intro b n2 m2 ha hb h
    cases b with
    | nil =>
      simp only [List.cons_append, List.nil_append, List.cons.injEq] at h
      exact absurd (h.1 ▸ List.mem_cons_self c as) (h.1 ▸ ha)
    | cons d bs =>
      simp only [List.cons_append, List.cons.injEq] at h
      have ha2 : m ∉ as := fun hm => ha (List.mem_cons_of_mem _ hm)
      have hb2 : m ∉ bs := fun hm => hb (List.mem_cons_of_mem _ hm)
      rcases ih bs n2 m2 ha2 hb2 h.2 with ⟨h1, h2⟩
      exact ⟨by rw [h.1, h1], h2⟩

/-- The locator-function names used as cache-key suffixes are colon-free. -/
theorem fnName_colon_free (k : LocKind) : (':' : Char) ∉ (fnName k).data := by
  cases k <;> decide

/-- The locator-function names are distinct per extraction kind. -/
theorem fnName_inj (k1 k2 : LocKind) (h : fnName k1 = fnName k2) : k1 = k2 := by
  cases k1 <;> cases k2 <;> first | rfl | (exfalso; simp [fnName] at h)

/-- The character list underlying a cache key splits as hash data, colon,
function-name data. -/
theorem mkKey_data (hash : String → String) (t : String) (k : LocKind) :
    (mkKey hash t k).data = (hash t).data ++ ':' :: (fnName k).data := by
  unfold mkKey
  rw [String.data_append, String.data_append]
  rw [show (":" : String).data = [':'] from rfl, List.append_assoc]
  rfl

/-- When the hash output is colon-free, equal cache keys force equal hashes
and equal extraction kinds. -/
theorem mkKey_eq_iff (hash : String → String) (t1 t2 : String) (k1 k2 : LocKind)
    (h1 : (':' : Char) ∉ (hash t1).data) (h2 : (':' : Char) ∉ (hash t2).data) :
    mkKey hash t1 k1 = mkKey hash t2 k2 ↔ hash t1 = hash t2 ∧ k1 = k2 := by
  constructor
  · intro h
    have hd : (mkKey hash t1 k1).data = (mkKey hash t2 k2).data := by rw [h]
    rw [mkKey_data, mkKey_data] at hd
    rcases append_marker_inj ':' _ _ _ _ h1 h2 hd with ⟨ha, hn⟩
    refine ⟨?_, fnName_inj k1 k2 ?_⟩
    · cases hh1 : hash t1; cases hh2 : hash t2
      rw [hh1, hh2] at ha
      exact congrArg String.mk (by simpa using ha)
    · cases hf1 : fnName k1; cases hf2 : fnName k2
      rw [hf1, hf2] at hn
      exact congrArg String.mk (by simpa using hn)
  · rintro ⟨hh, rfl⟩
    unfold mkKey
    rw [hh]

/-- Coherence of a cache state with the locators: every stored entry reachable
under the key of a (text, kind) pair holds exactly that pair's extraction
result. -/
def Coherent (hash : String → String) (parse : String → List JSXNode) (c : Cache) : Prop :=
  ∀ t k v, cacheLookup c (mkKey hash t k) = some v → runLocator parse k t = .ok v

/-- The empty cache is coherent. -/
theorem coherent_nil (hash : String → String) (parse : String → List JSXNode) :
    Coherent hash parse [] := by
  intro t k v h
  simp [cacheLookup] at h

/-- From a coherent cache, a successful `getCachedBoundaries` call returns
exactly the result of running the locator on the text, whether the call hit
the cache or recomputed. -/
theorem coherent_call_ok (hash : String → String) (parse : String → List JSXNode)
    (text : String) (k : LocKind) (c : Cache)
    (hc : Coherent hash parse c) (v : List Int) (c1 : Cache)
    (h : getCachedBoundaries hash parse text k c = (.ok v, c1)) :
    runLocator parse k text = .ok v := by
  unfold getCachedBoundaries at h
  cases hl : cacheLookup c (mkKey hash text k) with
  | some entry =>
    rw [cacheGetRefresh_hit c _ entry hl] at h
    simp only [Prod.mk.injEq, Except.ok.injEq] at h
    rw [← h.1]
    exact hc text k entry hl
  | none =>
    rw [cacheGetRefresh_miss c _ hl] at h
    simp only at h
    cases hr : runLocator parse k text with
    | ok v2 => rw [hr] at h; simp only [Prod.mk.injEq, Except.ok.injEq] at h; rw [h.1]
    | error e => rw [hr] at h; simp at h

/-- A `getCachedBoundaries` call writes no key other than its own: a lookup
under a different key after the call returns what it returned before. -/
theorem getCached_other_key (hash : String → String) (parse : String → List JSXNode)
    (text : String) (k : LocKind) (c : Cache) (r : Except ExtractError (List Int))
    (c1 : Cache) (k2 : String) (v : List Int)
    (hcall : getCachedBoundaries hash parse text k c = (r, c1))
    (hne : k2 ≠ mkKey hash text k)
    (h : cacheLookup c1 k2 = some v) : cacheLookup c k2 = some v := by
  unfold getCachedBoundaries at hcall
  cases hl : cacheLookup c (mkKey hash text k) with
  | some entry =>
    rw [cacheGetRefresh_hit c _ entry hl] at hcall
    simp only [Prod.mk.injEq] at hcall
    rw [← hcall.2] at h
    rw [cacheLookup_cons] at h
    have hb : (mkKey hash text k == k2) = false := by
      simpa using fun he => hne he.symm
    rw [hb] at h
    simp only [Bool.false_eq_true, if_false] at h
    rw [cacheLookup_filter_ne c _ _ hne] at h
    exact h
  | none =>
    rw [cacheGetRefresh_miss c _ hl] at hcall
    simp only at hcall
    cases hr : runLocator parse k text with
    | ok v2 =>
      rw [hr] at hcall
      simp only [Prod.mk.injEq] at hcall
      rw [← hcall.2] at h
      exact cacheLookup_cacheSet_ne c _ k2 v2 v hne h
    | error e =>
      rw [hr] at hcall
      simp only [Prod.mk.injEq] at hcall
      rw [← hcall.2] at h
      exact h

/-- A `getCachedBoundaries` call preserves coherence, provided the hash output
is colon-free (as a SHA-1 hex digest is) and the content fingerprint
determines extraction results (no effective collisions, the spec's standing
assumption on the fingerprint). -/
theorem coherent_call_preserved (hash : String → String) (parse : String → List JSXNode)
    (hcf : ∀ t, (':' : Char) ∉ (hash t).data)
    (hfaith : ∀ t1 t2 k2, hash t1 = hash t2 → runLocator parse k2 t1 = runLocator parse k2 t2)
    (text : String) (k : LocKind) (c : Cache)
    (hc : Coherent hash parse c) (r : Except ExtractError (List Int)) (c1 : Cache)
    (hcall : getCachedBoundaries hash parse text k c = (r, c1)) :
    Coherent hash parse c1 := by
  intro t2 k2 v h
  by_cases hkey : mkKey hash t2 k2 = mkKey hash text k
  · rcases (mkKey_eq_iff hash t2 text k2 k (hcf t2) (hcf text)).mp hkey with ⟨hh, rfl⟩
    rw [hfaith t2 text k2 hh]
    unfold getCachedBoundaries at hcall
    cases hl : cacheLookup c (mkKey hash text k2) with
    | some entry =>
      rw [cacheGetRefresh_hit c _ entry hl] at hcall
      simp only [Prod.mk.injEq] at hcall
      rw [← hcall.2, hkey] at h
      rw [cacheLookup_cons] at h
      simp only [beq_self_eq_true, if_true, Option.some.injEq] at h
      rw [← h]
      exact hc text k2 entry hl
    | none =>
      rw [cacheGetRefresh_miss c _ hl] at hcall
      simp only at hcall
      cases hr : runLocator parse k2 text with
      | ok v2 =>
        rw [hr] at hcall
        simp only [Prod.mk.injEq] at hcall
        rw [← hcall.2, hkey] at h
        rw [cacheLookup_cacheSet_self] at h
        exact congrArg Except.ok (Option.some.inj h)
      | error e =>
        rw [hr] at hcall
        simp only [Prod.mk.injEq] at hcall
        rw [← hcall.2, hkey] at h
        rw [hl] at h
        simp at h
  · exact hc t2 k2 v (getCached_other_key hash parse text k c r c1 _ v hcall hkey h)

/-- Every offset in the trailing-width table lies between -3 and -1. -/
theorem table_offset_range (k : ExprKind) (off : Int)
    (h : JSX_EXPRESSION_TYPE_OFFSETS k = some off) : -3 ≤ off ∧ off ≤ -1 := by
  cases k <;> simp [JSX_EXPRESSION_TYPE_OFFSETS] at h <;> omega

/-- A successful per-attribute boundary is inside the text. -/
theorem attrBoundary_ok_bounds (len : Nat) (a : JSXAttr) (o : Int)
    (hwf : wfAttr len a = true) (h : attrBoundary a = .ok o) :
    0 ≤ o ∧ o < (len : Int) := by
  cases a with
  | jsxSpreadAttribute s e? =>
    cases e? with
    | none => simp [attrBoundary, jsFalsyEnd] at h
    | some e =>
      simp only [wfAttr, Bool.and_eq_true, decide_eq_true_eq] at hwf
      have he : ¬ (e = 0) := by omega
      simp only [attrBoundary, jsFalsyEnd, beq_iff_eq, he, if_false, Except.ok.injEq] at h
      omega
  | jsxAttribute s e? v =>
    cases e? with
    | none => simp [attrBoundary, jsFalsyEnd] at h
    | some e =>
      cases v with
      | nullVal =>
        simp only [wfAttr, decide_eq_true_eq] at hwf
        by_cases he : e = 0
        · simp [attrBoundary, jsFalsyEnd, he] at h
        · simp only [attrBoundary, jsFalsyEnd, beq_iff_eq, he, if_false,
            Except.ok.injEq] at h
          omega
      | undefinedVal =>
        by_cases he : e = 0 <;>
          simp [attrBoundary, jsFalsyEnd, he] at h
      | val av =>
        cases av with
        | stringLiteral =>
          simp only [wfAttr, Bool.and_eq_true, decide_eq_true_eq] at hwf
          have he : ¬ (e = 0) := by omega
          simp only [attrBoundary, jsFalsyEnd, beq_iff_eq, he, if_false,
            Except.ok.injEq] at h
          omega
        | jsxElement =>
          simp only [wfAttr, Bool.and_eq_true, decide_eq_true_eq] at hwf
          have he : ¬ (e = 0) := by omega
          simp only [attrBoundary, jsFalsyEnd, beq_iff_eq, he, if_false,
            Except.ok.injEq] at h
          omega
        | jsxFragment =>
          simp only [wfAttr, Bool.and_eq_true, decide_eq_true_eq] at hwf
          have he : ¬ (e = 0) := by omega
          simp only [attrBoundary, jsFalsyEnd, beq_iff_eq, he, if_false,
            Except.ok.injEq] at h
          omega
        | exprContainer k =>
          simp only [wfAttr, Bool.and_eq_true, decide_eq_true_eq] at hwf
          have he : ¬ (e = 0) := by omega
          cases ht : JSX_EXPRESSION_TYPE_OFFSETS k with
          | none =>
            simp [attrBoundary, jsFalsyEnd, he, ht] at h
          | some off =>
            have hr := table_offset_range k off ht
            simp only [attrBoundary, jsFalsyEnd, beq_iff_eq, he, if_false, ht,
              Except.ok.injEq] at h
            omega
        | otherValue t =>
          by_cases he : e = 0 <;>
            simp [attrBoundary, jsFalsyEnd, he] at h
  | otherAttr t s e? =>
    cases e? with
    | none => simp [attrBoundary, jsFalsyEnd] at h
    | some e =>
      by_cases he : e = 0 <;>
        simp [attrBoundary, jsFalsyEnd, he] at h

/-- A successful attribute extraction over a list of well-formed attributes
yields only offsets inside the text. -/
theorem attrBoundaries_ok_bounds (len : Nat) :
    ∀ (attrs : List JSXAttr), (∀ a ∈ attrs, wfAttr len a = true) →
      ∀ (l : List Int), attrBoundaries attrs = .ok l →
        ∀ o ∈ l, 0 ≤ o ∧ o < (len : Int) := by
  intro attrs
  induction attrs with
  | nil =>
    intro _ l h
    simp only [attrBoundaries, Except.ok.injEq] at h
    subst h
    simp
  | cons a t ih =>
    intro hwf l h
    unfold attrBoundaries at h
    cases ha : attrBoundary a with
    | error e => rw [ha] at h; cases h
    | ok v =>
      rw [ha] at h
      cases ht : attrBoundaries t with
      | error e => rw [ht] at h; cases h
      | ok vs =>
        rw [ht] at h
        simp only [Except.ok.injEq] at h
        subst h
        intro o ho
        rcases List.mem_cons.mp ho with rfl | ho
        · exact attrBoundary_ok_bounds len a o (hwf a (List.mem_cons_self _ _)) ha
        · exact ih (fun x hx => hwf x (List.mem_cons_of_mem _ hx)) vs ht o ho

/-- Every attribute occurring in a well-formed document is well formed. -/
theorem wf_flat_attrs (len : Nat) (nodes : List JSXNode) (h : WFdoc len nodes) :
    ∀ a ∈ nodes.flatMap nodeAttrs, wfAttr len a = true := by
  intro a ha
  rcases List.mem_flatMap.mp ha with ⟨n, hn, hna⟩
  have hw := h n hn
  cases n with
  | opening el =>
    simp only [nodeAttrs] at hna
    simp only [wfNode, Bool.and_eq_true, List.all_eq_true] at hw
    exact hw.2 a hna
  | closing s e => simp [nodeAttrs] at hna
  | otherNode => simp [nodeAttrs] at hna

/-- Tag boundaries of a well-formed document lie inside the text. -/
theorem tag_positions_bounds (len : Nat) :
    ∀ (nodes : List JSXNode), WFdoc len nodes →
      ∀ o ∈ getTagBoundaryPositions nodes, 0 ≤ o ∧ o < (len : Int) := by
  intro nodes
  induction nodes with
  | nil => intro _ o ho; simp [getTagBoundaryPositions] at ho
  | cons n t ih =>
    intro h o ho
    have ht : WFdoc len t := fun m hm => h m (List.mem_cons_of_mem _ hm)
    cases n with
    | opening el =>
      have hw := h _ (List.mem_cons_self _ _)
      simp only [wfNode, Bool.and_eq_true] at hw
      cases he : el.endPos with
      | none =>
        rw [getTagBoundaryPositions] at ho
        simp only [tagBoundary, he, List.nil_append] at ho
        exact ih ht o ho
      | some e =>
        rw [getTagBoundaryPositions] at ho
        simp only [tagBoundary, he, List.singleton_append] at ho
        rcases List.mem_cons.mp ho with rfl | ho
        · rw [he] at hw
          rcases hw with ⟨hw1, _⟩
          cases hsc : el.selfClosing <;> simp only [hsc] at hw1 ⊢ <;>
            simp at hw1 ⊢ <;> omega
        · exact ih ht o ho
    | closing s e =>
      rw [getTagBoundaryPositions] at ho
      exact ih ht o ho
    | otherNode =>
      rw [getTagBoundaryPositions] at ho
      exact ih ht o ho

/-- A cache all of whose stored boundary lists are empty. -/
def allNilCache (c : Cache) : Prop := ∀ kv ∈ c, kv.2 = ([] : List Int)

/-- On a document with no nodes at all, `getCachedBoundaries` answers the
empty list from any all-empty cache and keeps the cache all-empty. -/
theorem getCached_nil (hash : String → String) (parse : String → List JSXNode)
    (text : String) (k : LocKind) (c : Cache) (hp : parse text = [])
    (hc : allNilCache c) :
    (getCachedBoundaries hash parse text k c).1 = .ok [] ∧
      allNilCache (getCachedBoundaries hash parse text k c).2 := by
  have hrun : runLocator parse k text = .ok [] := by
    cases k <;> simp [runLocator, hp, getTagBoundaryPositions,
      getAttributeBoundaryPositions, attrBoundaries]
  unfold getCachedBoundaries
  cases hl : cacheLookup c (mkKey hash text k) with
  | some entry =>
    rw [cacheGetRefresh_hit c _ entry hl]
    have hentry : entry = [] := by
      unfold cacheLookup at hl
      rcases Option.map_eq_some'.mp hl with ⟨kv, hf, hv⟩
      rw [← hv]
      exact hc kv (List.mem_of_find?_eq_some hf)
    subst hentry
    refine ⟨rfl, ?_⟩
    intro kv hkv2
    rcases List.mem_cons.mp hkv2 with rfl | hkv2
    · rfl
    · exact hc kv (List.mem_of_mem_filter hkv2)
  | none =>
    rw [cacheGetRefresh_miss c _ hl]
    rw [hrun]
    refine ⟨rfl, ?_⟩
    intro kv hkv
    unfold cacheSet at hkv
    have hkv2 := List.mem_of_mem_take hkv
    rcases List.mem_cons.mp hkv2 with rfl | hkv2
    · rfl
    · exact hc kv (List.mem_of_mem_filter hkv2)

/-- On a document with no nodes at all, the gathering loop of
`jumpToBoundary` produces the empty position list from any all-empty
cache. -/
theorem gather_nil (hash : String → String) (parse : String → List JSXNode)
    (text : String) (hp : parse text = []) :
    ∀ (fns : List LocKind) (c : Cache), allNilCache c →
      (gather hash parse fns text c).1 = .ok [] ∧
        allNilCache (gather hash parse fns text c).2 := by
  intro fns
  induction fns with
  | nil => intro c hc; exact ⟨rfl, hc⟩
  | cons k rest ih =>
    intro c hc
    have h1 := getCached_nil hash parse text k c hp hc
    cases hcall : getCachedBoundaries hash parse text k c with
    | mk r c1 =>
      rw [hcall] at h1
      simp only at h1
      rcases h1 with ⟨h1a, h1b⟩
      subst h1a
      have h2 := ih c1 h1b
      cases hg : gather hash parse rest text c1 with
      | mk r2 c2 =>
        rw [hg] at h2
        simp only at h2
        rcases h2 with ⟨h2a, h2b⟩
        subst h2a
        unfold gather
        rw [hcall]
        simp only [hg]
        exact ⟨rfl, h2b⟩

/-- After a successful `getCachedBoundaries` call, the cache holds the
returned list under the call's key. -/
theorem getCached_self_lookup (hash : String → String) (parse : String → List JSXNode)
    (text : String) (k : LocKind) (c : Cache) (v : List Int) (c1 : Cache)
    (h : getCachedBoundaries hash parse text k c = (.ok v, c1)) :
    cacheLookup c1 (mkKey hash text k) = some v := by
  unfold getCachedBoundaries at h
  cases hl : cacheLookup c (mkKey hash text k) with
  | some entry =>
    rw [cacheGetRefresh_hit c _ entry hl] at h
    simp only [Prod.mk.injEq, Except.ok.injEq] at h
    rw [← h.2, ← h.1]
    rw [cacheLookup_cons]
    simp
  | none =>
    rw [cacheGetRefresh_miss c _ hl] at h
    simp only at h
    cases hr : runLocator parse k text with
    | ok v2 =>
      rw [hr] at h
      simp only [Prod.mk.injEq, Except.ok.injEq] at h
      rw [← h.2, ← h.1]
      exact cacheLookup_cacheSet_self c _ v2
    | error e =>
      rw [hr] at h
      simp at h

/-- A call served by a cache entry returns that entry: with the key present,
`getCachedBoundaries` answers the stored list. -/
theorem getCached_hit (hash : String → String) (parse : String → List JSXNode)
    (text : String) (k : LocKind) (c : Cache) (v : List Int)
    (h : cacheLookup c (mkKey hash text k) = some v) :
    (getCachedBoundaries hash parse text k c).1 = .ok v := by
  unfold getCachedBoundaries
  rw [cacheGetRefresh_hit c _ v h]

/-- C1: for every attribute whose value is an expression container of a kind
present in the trailing-width table, boundary extraction returns
`attributeEnd + trailingWidth(kind)`, where the trailing width is a fixed
non-positive integer determined solely by the kind; in particular
`ArrayExpression` has trailing width -2 and `Identifier` has trailing
width -1. -/
theorem trailing_width_extraction :
    (∀ (k : ExprKind) (off : Int), JSX_EXPRESSION_TYPE_OFFSETS k = some off → off ≤ 0)
  ∧ (∀ (s : Option Nat) (e : Nat) (k : ExprKind) (off : Int), 0 < e →
      JSX_EXPRESSION_TYPE_OFFSETS k = some off →
      attrBoundary (.jsxAttribute s (some e) (.val (.exprContainer k))) = .ok ((e : Int) + off))
  ∧ JSX_EXPRESSION_TYPE_OFFSETS .ArrayExpression = some (-2)
  ∧ JSX_EXPRESSION_TYPE_OFFSETS .Identifier = some (-1) := by
  refine ⟨?_, ?_, rfl, rfl⟩
  · intro k off h
    have := table_offset_range k off h
    omega
  · intro s e k off he hoff
    have hne : ¬ (e = 0) := by omega
    simp [attrBoundary, jsFalsyEnd, hne, hoff]

/-- Witness for C1: the `Identifier` row applied to an attribute ending at
offset 8 (as in `<A b={c} />`), together with the non-positivity of its
trailing width. -/
theorem trailing_width_extraction_witness :
    attrBoundary (.jsxAttribute (some 3) (some 8) (.val (.exprContainer .Identifier)))
        = .ok ((8 : Int) + (-1))
      ∧ (-1 : Int) ≤ 0 :=
  ⟨trailing_width_extraction.2.1 (some 3) 8 .Identifier (-1) (by decide) rfl,
   trailing_width_extraction.1 .Identifier (-1) rfl⟩

/-- C2 (counterexample): on the parse of `<div>content</div>` the extraction
does not return `[3]`: Babel records the opening element's end as 5 (one past
its `>`), so the pushed boundary is `5 - 1 = 4`, not `3`. -/
theorem div_tag_boundary_not_three : getTagBoundaryPositions divNodes ≠ [3] := by
  decide

/-- C2 (amended): tag-boundary extraction emits a boundary only for open and
self-closing tags: a self-closing tag contributes `end - 2` (the offset just
before its `/>`) and a non-self-closing open tag contributes `end - 1` (the
offset of its `>`, i.e. the cursor position immediately before it); closing
tags and other nodes contribute no boundary.  On `<div>content</div>` the
result is exactly `[4]`, and on `<br/>` the boundary is at offset 3. -/
theorem tag_boundary_positions_rule :
    (∀ (e : Nat) (sc : Bool) (attrs : List JSXAttr),
      getTagBoundaryPositions [JSXNode.opening ⟨some e, sc, attrs⟩] =
        [if sc then (e : Int) - 2 else (e : Int) - 1])
  ∧ (∀ (s e2 : Nat), getTagBoundaryPositions [JSXNode.closing s e2] = [])
  ∧ getTagBoundaryPositions [JSXNode.otherNode] = []
  ∧ getTagBoundaryPositions divNodes = [4]
  ∧ getTagBoundaryPositions brNodes = [3] := by
  refine ⟨?_, ?_, rfl, rfl, rfl⟩
  · intro e sc attrs
    rfl
  · intro s e2
    rfl

/-- C3: a spread attribute yields the offset one character before its end, a
value-less (boolean) attribute yields the offset exactly at its end, and an
attribute whose value is a quoted string literal or a nested element or
fragment yields the offset one character before its end. -/
theorem attr_boundary_shapes (s : Option Nat) (e : Nat) (he : 0 < e) :
    attrBoundary (.jsxSpreadAttribute s (some e)) = .ok ((e : Int) - 1)
  ∧ attrBoundary (.jsxAttribute s (some e) .nullVal) = .ok (e : Int)
  ∧ attrBoundary (.jsxAttribute s (some e) (.val .stringLiteral)) = .ok ((e : Int) - 1)
  ∧ attrBoundary (.jsxAttribute s (some e) (.val .jsxElement)) = .ok ((e : Int) - 1)
  ∧ attrBoundary (.jsxAttribute s (some e) (.val .jsxFragment)) = .ok ((e : Int) - 1) := by
  have hne : ¬ (e = 0) := by omega
  refine ⟨?_, ?_, ?_, ?_, ?_⟩ <;> simp [attrBoundary, jsFalsyEnd, hne]

/-- Witness for C3: the boolean attribute of `<input visible />` (ending at
offset 14) gets boundary 14, and its spread-shaped analogue ending there gets
13. -/
theorem attr_boundary_shapes_witness :
    attrBoundary (.jsxAttribute (some 7) (some 14) .nullVal) = .ok ((14 : Nat) : Int)
  ∧ attrBoundary (.jsxSpreadAttribute (some 7) (some 14)) = .ok (((14 : Nat) : Int) - 1) :=
  ⟨(attr_boundary_shapes (some 7) 14 (by decide)).2.1,
   (attr_boundary_shapes (some 7) 14 (by decide)).1⟩

/-- C4: in the refactored locator copy (src/unnamed/part_004), an attribute
whose expression-container kind is absent from the trailing-width table is NOT
rejected with an error: `getJSXAttributeBoundary` silently returns the
non-numeric offset `NaN` (`attr.end + undefined`), contradicting its own doc
comment and the fail-loudly rule; the src/babel-boundary-locator.ts version
does raise the unsupported-kind error as the claim states.  The concrete input
is the attribute of `<Button onClick={function () { return 1 }} />`, whose
`onClick` attribute spans offsets 8-42 and holds a `FunctionExpression`. -/
theorem unsupported_kind_silent_nan :
    getJSXAttributeBoundary (some 8) (some 42)
        (.val (.exprContainer .FunctionExpression)) = .ok .nan
  ∧ attrBoundary (.jsxAttribute (some 8) (some 42)
        (.val (.exprContainer .FunctionExpression)))
      = .error (.unsupportedExpressionKind .FunctionExpression) := by
  exact ⟨rfl, rfl⟩

/-- C6 (counterexample): the well-formed parse of
`<Widget content={<span>bar</span>} />` yields tag boundaries `[35, 22]` -
the outer element is visited before the element nested in its attribute value
even though its boundary is larger - so the returned sequence is not strictly
ascending. -/
theorem nested_element_breaks_ascending :
    WFdoc 37 widgetNodes ∧
      ¬ List.Pairwise (· < ·) (getTagBoundaryPositions widgetNodes) := by
  constructor
  · intro n hn
    fin_cases hn <;> decide
  · decide

/-- C6 (amended): for a well-formed document, every offset returned by tag or
attribute extraction lies within `[0, len)`; the raw sequences follow
tree-traversal order and need not be ascending when elements are nested inside
attribute values, but after the navigation resolver's deduplicate-and-sort
step they are strictly ascending and duplicate-free. -/
theorem boundary_offsets_in_range (len : Nat) (nodes : List JSXNode)
    (h : WFdoc len nodes) :
    (∀ o ∈ getTagBoundaryPositions nodes, 0 ≤ o ∧ o < (len : Int))
  ∧ (∀ l, getAttributeBoundaryPositions nodes = .ok l →
      ∀ o ∈ l, 0 ≤ o ∧ o < (len : Int))
  ∧ List.Pairwise (· < ·) (dedupSort (getTagBoundaryPositions nodes))
  ∧ (∀ l, getAttributeBoundaryPositions nodes = .ok l →
      List.Pairwise (· < ·) (dedupSort l)) := by
  refine ⟨tag_positions_bounds len nodes h, ?_, pairwise_lt_dedupSort _, ?_⟩
  · intro l hl
    exact attrBoundaries_ok_bounds len (nodes.flatMap nodeAttrs)
      (wf_flat_attrs len nodes h) l hl
  · intro l _
    exact pairwise_lt_dedupSort l

/-- Witness for C6 (amended): on the well-formed parse of
`<Widget content={<span>bar</span>} />`, the boundary 35 lies within `[0, 37)`
and the deduplicated sorted tag list is strictly ascending. -/
theorem boundary_offsets_in_range_witness :
    (0 ≤ (35 : Int) ∧ (35 : Int) < ((37 : Nat) : Int))
  ∧ List.Pairwise (· < ·) (dedupSort (getTagBoundaryPositions widgetNodes)) := by
  have h := boundary_offsets_in_range 37 widgetNodes (by intro n hn; fin_cases hn <;> decide)
  exact ⟨h.1 35 (by decide), h.2.2.1⟩

/-- C5: forward navigation returns exactly the smallest boundary of the
merged, deduplicated, sorted lists strictly greater than the cursor offset,
backward navigation the largest strictly smaller one, and each returns `none`
(not an error) when no such boundary exists - in particular on a document
with no nodes at all. -/
theorem nearest_boundary_characterization :
    (∀ (L : List Int) (p x : Int),
      findTarget .next (dedupSort L) p = some x ↔
        x ∈ L ∧ p < x ∧ ∀ y ∈ L, p < y → x ≤ y)
  ∧ (∀ (L : List Int) (p : Int),
      findTarget .next (dedupSort L) p = none ↔ ∀ y ∈ L, ¬ p < y)
  ∧ (∀ (L : List Int) (p x : Int),
      findTarget .prev (dedupSort L) p = some x ↔
        x ∈ L ∧ x < p ∧ ∀ y ∈ L, y < p → y ≤ x)
  ∧ (∀ (L : List Int) (p : Int),
      findTarget .prev (dedupSort L) p = none ↔ ∀ y ∈ L, ¬ y < p)
  ∧ (∀ (hash : String → String) (parse : String → List JSXNode)
       (fns : List LocKind) (dir : Direction) (text : String) (c : Cache)
       (p : Int) (L : List Int) (c1 : Cache),
      gather hash parse fns text c = (.ok L, c1) →
      jumpToBoundary hash parse fns dir text c p =
        (.ok (findTarget dir (dedupSort L) p), c1))
  ∧ (∀ (hash : String → String) (parse : String → List JSXNode)
       (fns : List LocKind) (dir : Direction) (text : String) (c : Cache)
       (p : Int), parse text = [] → allNilCache c →
      (jumpToBoundary hash parse fns dir text c p).1 = .ok none) := by
  refine ⟨?_, ?_, ?_, ?_, ?_, ?_⟩
  · intro L p x
    rw [show findTarget .next (dedupSort L) p =
          (dedupSort L).find? (fun o => decide (p < o)) from rfl]
    rw [find?_gt_sorted p (dedupSort L) (sorted_dedupSort L) x]
    constructor
    · rintro ⟨hm, hp, hmin⟩
      exact ⟨(mem_dedupSort L x).mp hm, hp,
        fun y hy => hmin y ((mem_dedupSort L y).mpr hy)⟩
    · rintro ⟨hm, hp, hmin⟩
      exact ⟨(mem_dedupSort L x).mpr hm, hp,
        fun y hy => hmin y ((mem_dedupSort L y).mp hy)⟩
  · intro L p
    rw [show findTarget .next (dedupSort L) p =
          (dedupSort L).find? (fun o => decide (p < o)) from rfl]
    rw [List.find?_eq_none]
    constructor
    · intro h y hy
      have := h y ((mem_dedupSort L y).mpr hy)
      simpa using this
    · intro h y hy
      have := h y ((mem_dedupSort L y).mp hy)
      simpa using this
  · intro L p x
    rw [show findTarget .prev (dedupSort L) p =
          (dedupSort L).reverse.find? (fun o => decide (o < p)) from rfl]
    rw [find?_lt_sorted_ge p (dedupSort L).reverse (sorted_ge_reverse_dedupSort L) x]
    constructor
    · rintro ⟨hm, hp, hmax⟩
      refine ⟨(mem_dedupSort L x).mp (List.mem_reverse.mp hm), hp, ?_⟩
      intro y hy
      exact hmax y (List.mem_reverse.mpr ((mem_dedupSort L y).mpr hy))
    · rintro ⟨hm, hp, hmax⟩
      refine ⟨List.mem_reverse.mpr ((mem_dedupSort L x).mpr hm), hp, ?_⟩
      intro y hy
      exact hmax y ((mem_dedupSort L y).mp (List.mem_reverse.mp hy))
  · intro L p
    rw [show findTarget .prev (dedupSort L) p =
          (dedupSort L).reverse.find? (fun o => decide (o < p)) from rfl]
    rw [List.find?_eq_none]
    constructor
    · intro h y hy
      have := h y (List.mem_reverse.mpr ((mem_dedupSort L y).mpr hy))
      simpa using this
    · intro h y hy
      have := h y ((mem_dedupSort L y).mp (List.mem_reverse.mp hy))
      simpa using this
  · intro hash parse fns dir text c p L c1 hg
    unfold jumpToBoundary
    rw [hg]
  · intro hash parse fns dir text c p hp hc
    have hg := gather_nil hash parse text hp fns c hc
    cases hgath : gather hash parse fns text c with
    | mk r c2 =>
      rw [hgath] at hg
      simp only at hg
      rcases hg with ⟨hg1, _⟩
      subst hg1
      unfold jumpToBoundary
      rw [hgath]
      cases dir <;> rfl

/-- Witness for C5: with both locators selected on the parse of `<br/>` from
the empty cache, forward navigation from offset 0 lands on the boundary 3,
and on an empty document it returns none. -/
theorem nearest_boundary_characterization_witness :
    findTarget .next (dedupSort [35, 22]) 0 = some 22
  ∧ (jumpToBoundary (fun _ => "h") (fun _ => []) [.attr, .tag] .next "x" [] 0).1
      = .ok none := by
  refine ⟨?_, ?_⟩
  · exact (nearest_boundary_characterization.1 [35, 22] 0 22).mpr
      ⟨by decide, by decide, by decide⟩
  · exact nearest_boundary_characterization.2.2.2.2.2
      (fun _ => "h") (fun _ => []) [.attr, .tag] .next "x" [] 0 rfl
      (by intro kv hkv; cases hkv)

/-- C9: forward navigation is monotonic in the start position: for one
document, selection and cache, if navigation from `p` and from `q > p` both
find a boundary, the boundary found from `q` is at least the one found from
`p`. -/
theorem find_next_monotonic (hash : String → String) (parse : String → List JSXNode)
    (fns : List LocKind) (text : String) (c : Cache) (p q a b : Int)
    (hpq : p < q)
    (ha : (jumpToBoundary hash parse fns .next text c p).1 = .ok (some a))
    (hb : (jumpToBoundary hash parse fns .next text c q).1 = .ok (some b)) :
    a ≤ b := by
  unfold jumpToBoundary at ha hb
  cases hg : gather hash parse fns text c with
  | mk r c1 =>
    rw [hg] at ha hb
    cases r with
    | error e => simp at ha
    | ok L =>
      simp only [Except.ok.injEq] at ha hb
      have hsort := sorted_dedupSort L
      have hca := (find?_gt_sorted p (dedupSort L) hsort a).mp ha
      have hcb := (find?_gt_sorted q (dedupSort L) hsort b).mp hb
      exact hca.2.2 b hcb.1 (lt_trans hpq hcb.2.1)

/-- Witness for C9: on the parse of `<br/>` with boundary list `[3]`, forward
navigation from 0 and from 1 both land on 3, and 3 ≤ 3. -/
theorem find_next_monotonic_witness : (3 : Int) ≤ 3 :=
  find_next_monotonic (fun _ => "h") (fun _ => brNodes) [.tag] "x" [] 0 1 3 3
    (by decide) rfl rfl

/-- C7: calling the cache lookup helper twice on identical text and kind
yields identical lists whether served from the cache or freshly computed;
from a coherent cache, the result of a successful call (cached or not) is
exactly the result of recomputing the extraction on that text; and calls
preserve coherence when the content fingerprint is colon-free and determines
the extraction result (the spec's no-effective-collision assumption on the
SHA-1 fingerprint). -/
theorem cache_idempotent_consistent (hash : String → String)
    (parse : String → List JSXNode) (text : String) (k : LocKind) (c : Cache) :
    (∀ (v : List Int) (c1 : Cache),
      getCachedBoundaries hash parse text k c = (.ok v, c1) →
      (getCachedBoundaries hash parse text k c1).1 = .ok v)
  ∧ (Coherent hash parse c →
      ∀ (v : List Int) (c1 : Cache),
        getCachedBoundaries hash parse text k c = (.ok v, c1) →
        runLocator parse k text = .ok v)
  ∧ ((∀ t, (':' : Char) ∉ (hash t).data) →
     (∀ t1 t2 k2, hash t1 = hash t2 →
        runLocator parse k2 t1 = runLocator parse k2 t2) →
     Coherent hash parse c →
     ∀ (r : Except ExtractError (List Int)) (c1 : Cache),
       getCachedBoundaries hash parse text k c = (r, c1) →
       Coherent hash parse c1) := by
  refine ⟨?_, ?_, ?_⟩
  · intro v c1 h
    exact getCached_hit hash parse text k c1 v
      (getCached_self_lookup hash parse text k c v c1 h)
  · intro hc v c1 h
    exact coherent_call_ok hash parse text k c hc v c1 h
  · intro hcf hfaith hc r c1 h
    exact coherent_call_preserved hash parse hcf hfaith text k c hc r c1 h

/-- Witness for C7: with a constant colon-free fingerprint and an empty parse,
a first call from the empty (coherent) cache computes `[]`, and the second
call - served from the cache - returns the same list, which equals the fresh
extraction result. -/
theorem cache_idempotent_consistent_witness :
    (getCachedBoundaries (fun _ => "h") (fun _ => []) "t" .tag
        [("h:getTagBoundaryPositions", [])]).1 = .ok []
  ∧ runLocator (fun _ => []) .tag "t" = .ok [] := by
  have h := cache_idempotent_consistent (fun _ => "h") (fun _ => []) "t" .tag []
  refine ⟨h.1 [] [("h:getTagBoundaryPositions", [])] rfl, ?_⟩
  exact h.2.1 (by intro t k v hv; simp [cacheLookup] at hv) []
    [("h:getTagBoundaryPositions", [])] rfl

/-- C8 (counterexample): the cache is keyed solely by fingerprint and
function name, so under a forced fingerprint collision two distinct texts of
the same extraction kind share one key: after the first text ("a", whose parse
is `<br/>`, boundaries `[3]`) populates the cache, the call for the second
text ("b", whose parse is `<div>content</div>`, boundaries `[4]`) hits that
entry and is served `[3]` - the first text's list - instead of its own
extraction result `[4]`.  Distinct texts therefore do not always map to
distinct, uncontaminated entries as the claim states. -/
theorem forced_collision_cross_contaminates :
    ("a" : String) ≠ "b"
  ∧ mkKey (fun _ => "h") "a" .tag = mkKey (fun _ => "h") "b" .tag
  ∧ (getCachedBoundaries (fun _ => "h")
        (fun t => if t = "a" then brNodes else divNodes) "a" .tag []).2
      = [("h:getTagBoundaryPositions", [3])]
  ∧ (getCachedBoundaries (fun _ => "h")
        (fun t => if t = "a" then brNodes else divNodes) "b" .tag
        [("h:getTagBoundaryPositions", [3])]).1
      = .ok [3]
  ∧ runLocator (fun t => if t = "a" then brNodes else divNodes) .tag "b" = .ok [4]
  ∧ ([3] : List Int) ≠ [4] := by
  refine ⟨by decide, rfl, rfl, rfl, rfl, by decide⟩

/-- C8 (amended): byte-identical text under the same extraction kind maps to
the same cache key; texts with distinct fingerprints map to distinct keys
whatever the kinds, the same text under the two different kinds maps to
distinct keys, and a call never writes any key but its own, so such distinct
entries are never cross-contaminated - distinct texts are separated exactly
when their fingerprints differ, which a forced collision defeats. -/
theorem cache_key_separation (hash : String → String)
    (hcf : ∀ t, (':' : Char) ∉ (hash t).data) :
    (∀ (t1 t2 : String) (k : LocKind), t1 = t2 →
      mkKey hash t1 k = mkKey hash t2 k)
  ∧ (∀ (t1 t2 : String) (k1 k2 : LocKind), hash t1 ≠ hash t2 →
      mkKey hash t1 k1 ≠ mkKey hash t2 k2)
  ∧ (∀ (t : String) (k1 k2 : LocKind), k1 ≠ k2 →
      mkKey hash t k1 ≠ mkKey hash t k2)
  ∧ (∀ (parse : String → List JSXNode) (text : String) (k : LocKind) (c : Cache)
       (r : Except ExtractError (List Int)) (c1 : Cache) (k2 : String) (v : List Int),
      getCachedBoundaries hash parse text k c = (r, c1) →
      k2 ≠ mkKey hash text k →
      cacheLookup c1 k2 = some v → cacheLookup c k2 = some v) := by
  refine ⟨?_, ?_, ?_, ?_⟩
  · intro t1 t2 k h
    rw [h]
  · intro t1 t2 k1 k2 hne h
    exact hne ((mkKey_eq_iff hash t1 t2 k1 k2 (hcf t1) (hcf t2)).mp h).1
  · intro t k1 k2 hne h
    exact hne ((mkKey_eq_iff hash t t k1 k2 (hcf t) (hcf t)).mp h).2
  · intro parse text k c r c1 k2 v hcall hne h
    exact getCached_other_key hash parse text k c r c1 k2 v hcall hne h

/-- Witness for C8: under the fingerprint sending `"x"` to `"a"` and
everything else to `"b"`, the keys of distinct texts are distinct, the keys
of the two kinds on one text are distinct, and a tag-kind call from the empty
cache leaves a foreign key unmapped. -/
theorem cache_key_separation_witness :
    mkKey (fun t => if t = "x" then "a" else "b") "x" .tag ≠
      mkKey (fun t => if t = "x" then "a" else "b") "y" .tag
  ∧ mkKey (fun t => if t = "x" then "a" else "b") "x" .tag ≠
      mkKey (fun t => if t = "x" then "a" else "b") "x" .attr := by
  have h := cache_key_separation (fun t => if t = "x" then "a" else "b")
    (by intro t; by_cases ht : t = "x" <;> simp [ht])
  refine ⟨h.2.1 "x" "y" .tag .tag (by decide), h.2.2.1 "x" .tag .attr (by decide)⟩

/-- C10: extraction failure is atomic with respect to the cache: when the key
is absent and the locator throws, the helper returns that very error and the
cache is exactly the one passed in - no entry is written. -/
theorem extraction_error_atomic (hash : String → String)
    (parse : String → List JSXNode) (text : String) (k : LocKind) (c : Cache)
    (e : ExtractError)
    (hmiss : cacheLookup c (mkKey hash text k) = none)
    (herr : runLocator parse k text = .error e) :
    getCachedBoundaries hash parse text k c = (.error e, c) := by
  unfold getCachedBoundaries
  rw [cacheGetRefresh_miss c _ hmiss, herr]

/-- Witness for C10: on a document whose only attribute holds a
`FunctionExpression` (absent from the table), the attribute locator throws
the unsupported-kind error and the call from the empty cache propagates it,
leaving the cache empty. -/
theorem extraction_error_atomic_witness :
    getCachedBoundaries (fun _ => "h")
        (fun _ => [JSXNode.opening
          { endPos := some 45, selfClosing := true,
            attributes := [.jsxAttribute (some 8) (some 42)
              (.val (.exprContainer .FunctionExpression))] }])
        "t" .attr []
      = (.error (.unsupportedExpressionKind .FunctionExpression), []) :=
  extraction_error_atomic (fun _ => "h")
    (fun _ => [JSXNode.opening
      { endPos := some 45, selfClosing := true,
        attributes := [.jsxAttribute (some 8) (some 42)
          (.val (.exprContainer .FunctionExpression))] }])
    "t" .attr [] (.unsupportedExpressionKind .FunctionExpression) rfl rfl
